import Mathlib

/-!
# voc: a shallow embedding of `voc.c`

The development models the parts of `voc.c` that decide the stated properties:

* `fill_dict` (lines 77-94): the record parser, over a byte buffer of
  `BUFSIZE` bytes refilled by successive `read` calls;
* `rand_file` (lines 100-124): the choice of a regular file in a directory;
* `start_interactive_choice` (lines 138-157): the choice-mode loop;
* the `case 'r'` block of `main` (lines 225-232): random mode.

Not modelled: a `read` that fails (returns -1), input of choice mode that is
not a sequence of integers, and the clock behind `srand`; the values of
`rand()` are parameters.  An integer typed in choice mode that does not fit
an `int` is undefined behaviour of `scanf`.

Conventions.  A byte is a natural number.  A C array of `char` is a map from
its index (a flat byte offset) to a byte, together with its size in bytes; a
two-dimensional array `char a[R][MAX_WORDLENGTH]` is the contiguous block of
`R * MAX_WORDLENGTH` bytes in which `a[r][c]` is the byte at offset
`r * MAX_WORDLENGTH + c`.  An access outside the block is undefined behaviour
and is reported as `Res.fault`, as is a division by zero; `strcpy` must stay
inside the object it is given, the row `files[i]` or the caller's `file`.  Loops whose
termination is not evident from the code carry a fuel argument; running out of
fuel is reported as `Res.timeout`.
-/

namespace Voc

/-! ## Constants (lines 19-22) -/

def MAX_FILES : Nat := 64
def MAX_WORDLENGTH : Nat := 128
def MAX_WORDS : Nat := 256
def BUFSIZE : Nat := 4096

/-! ## Results, memory and C strings -/

/-- Outcome of running a piece of the program: a value, undefined behaviour
(an out-of-bounds access or a division by zero), or exhausted fuel. -/
inductive Res (α : Type) where
  | ok : α → Res α
  | fault : Res α
  | timeout : Res α
  deriving DecidableEq, Repr

/-- Sequencing of outcomes: the first failure is the outcome. -/
def Res.bind {α β : Type} (r : Res α) (f : α → Res β) : Res β :=
  match r with
  | .ok a => f a
  | .fault => .fault
  | .timeout => .timeout

/-- A block of bytes, addressed by offset. -/
abbrev Mem := Nat → Nat

/-- A string of bytes. -/
abbrev Bytes := List Nat

/-- The zero-initialised block (`= {0}`). -/
def zeroMem : Mem := fun _ => 0

/-- The bytes of a string literal. -/
def bytes (s : String) : Bytes := s.toList.map Char.toNat

/-- Size in bytes of `char words[MAX_WORDS][MAX_WORDLENGTH]` (and of `meanings`). -/
def WORDS_SIZE : Nat := MAX_WORDS * MAX_WORDLENGTH

/-- Reading a C string: the bytes from offset `a` up to the first NUL, with
`k` bytes of the block left from `a` on; leaving the block is a fault. -/
def cstrAux (m : Mem) : Nat → Nat → Res Bytes
  | 0, _ => .fault
  | k + 1, a =>
    if m a = 0 then .ok []
    else (cstrAux m k (a + 1)).bind (fun s => .ok (m a :: s))

/-- The C string that starts at offset `a` of a block of `size` bytes. -/
def cstr (size : Nat) (m : Mem) (a : Nat) : Res Bytes :=
  cstrAux m (size - a) a

/-- The string `words[row]` (what `printf("%s", words[row])` prints). -/
def wordAt (words : Mem) (row : Nat) : Res Bytes :=
  cstr WORDS_SIZE words (row * MAX_WORDLENGTH)

/-- The value of `strlen(words[row])`. -/
def strlen (words : Mem) (row : Nat) : Res Nat :=
  (wordAt words row).bind (fun s => .ok s.length)

/-! ## `fill_dict` (lines 77-94) -/

/-- The two copying loops of `fill_dict` (lines 85-86 with `stop = ':'` and
`arr = words`, lines 88-89 with `stop = '\n'` and `arr = meanings`):
`for (int i = 0; buf[ibuf] && buf[ibuf] != stop; ibuf++) arr[iwords][i++] = buf[ibuf];`
The result is the final `ibuf` and the array. -/
def copyLoop (buf : Mem) (stop iwords : Nat) : Nat → Nat → Nat → Mem → Res (Nat × Mem)
  | 0, _, _, _ => .timeout
  | fuel + 1, ibuf, i, arr =>
    if BUFSIZE ≤ ibuf then .fault
    else if buf ibuf ≠ 0 ∧ buf ibuf ≠ stop then
      if iwords * MAX_WORDLENGTH + i < WORDS_SIZE then
        copyLoop buf stop iwords fuel (ibuf + 1) (i + 1)
          (Function.update arr (iwords * MAX_WORDLENGTH + i) (buf ibuf))
      else .fault
    else .ok (ibuf, arr)

/-- The record loop of `fill_dict` (lines 84-91):
`for (ibuf = 0; buf[ibuf]; iwords++) { word loop; ibuf++; meaning loop; ibuf++; }`
started at a given `ibuf`.  The result is `iwords`, `words` and `meanings`. -/
def recordLoop (buf : Mem) : Nat → Nat → Nat → Mem → Mem → Res (Nat × Mem × Mem)
  | 0, _, _, _, _ => .timeout
  | fuel + 1, ibuf, iwords, words, meanings =>
    if BUFSIZE ≤ ibuf then .fault
    else if buf ibuf = 0 then .ok (iwords, words, meanings)
    else
      (copyLoop buf 58 iwords (BUFSIZE + 1) ibuf 0 words).bind fun r1 =>
      (copyLoop buf 10 iwords (BUFSIZE + 1) (r1.1 + 1) 0 meanings).bind fun r2 =>
      recordLoop buf fuel (r2.1 + 1) (iwords + 1) r1.2 r2.2

/-- The bytes that `read(fd, buf, BUFSIZE)` delivers on a regular file with
content `file` at file offset `off`: at most `BUFSIZE` bytes, none at the end
of the file. -/
def read (file : Bytes) (off : Nat) : Bytes :=
  (file.drop off).take BUFSIZE

/-- The buffer after a `read` that delivered `chunk`: the first
`chunk.length` bytes are overwritten, the others are kept. -/
def bufAfter (buf : Mem) (chunk : Bytes) : Mem :=
  fun i => if i < chunk.length then chunk.getD i 0 else buf i

/-- The reading loop of `fill_dict` (line 83):
`for (iwords = 0; (read(fd, buf, BUFSIZE));) { record loop }`. -/
def readLoop (file : Bytes) : Nat → Nat → Mem → Nat → Mem → Mem → Res (Nat × Mem × Mem)
  | 0, _, _, _, _, _ => .timeout
  | fuel + 1, off, buf, iwords, words, meanings =>
    if (read file off).length = 0 then .ok (iwords, words, meanings)
    else
      (recordLoop (bufAfter buf (read file off)) (BUFSIZE + 1) 0 iwords words meanings).bind
        fun r => readLoop file fuel (off + (read file off).length)
          (bufAfter buf (read file off)) r.1 r.2.1 r.2.2

/-- The function `fill_dict` on a regular file with content `file`: the
result is `*n` and the arrays `words` and `meanings`.  The buffer starts
zeroed (`char buf[BUFSIZE] = {0}`). -/
def fill_dict (file : Bytes) (words meanings : Mem) : Res (Nat × Mem × Mem) :=
  readLoop file (file.length + 1) 0 zeroMem 0 words meanings

/-- The entries `(words[i], meanings[i])` for `i = row, ..., row + cnt - 1`,
each read as a C string. -/
def readDict (words meanings : Mem) : Nat → Nat → Res (List (Bytes × Bytes))
  | 0, _ => .ok []
  | cnt + 1, row =>
    (wordAt words row).bind fun w =>
    (wordAt meanings row).bind fun d =>
    (readDict words meanings cnt (row + 1)).bind fun rest =>
    .ok ((w, d) :: rest)

/-- What `main` holds after line 214: `fill_dict` run on zeroed `words` and
`meanings` (lines 162-163), observed as `n` and the `n` entries. -/
def parse_file (file : Bytes) : Res (Nat × List (Bytes × Bytes)) :=
  (fill_dict file zeroMem zeroMem).bind fun r =>
  (readDict r.2.1 r.2.2 r.1 0).bind fun es => .ok (r.1, es)

/-- The serialisation of an entry set as the lines `word:definition\n`. -/
def serialize : List (Bytes × Bytes) → Bytes
  | [] => []
  | e :: es => e.1 ++ 58 :: (e.2 ++ 10 :: serialize es)

/-! ## `rand_file` (lines 100-124) -/

/-- A directory entry as `readdir` returns it: its type and its name (the
string held in `d_name`). -/
structure dirent where
  d_type : Nat
  d_name : Bytes
  deriving DecidableEq

/-- The value of `DT_REG` in `dirent.h`. -/
def DT_REG : Nat := 8

/-- The call `strcpy(dst + a, src)` into an object that ends at offset `limit`
of the block `dst`: the bytes of `src`, then a NUL; a byte at or beyond
`limit` is written out of bounds. -/
def strcpy (limit : Nat) : Mem → Nat → Bytes → Res Mem
  | dst, a, [] => if a < limit then .ok (Function.update dst a 0) else .fault
  | dst, a, c :: s =>
    if a < limit then strcpy limit (Function.update dst a c) (a + 1) s else .fault

/-- The directory loop of `rand_file` (lines 109-112) over the entries that
`readdir` returns in turn: `if (entry->d_type == DT_REG) strcpy(files[i++], entry->d_name);`
The destination `files[i]` is a row of `MAX_WORDLENGTH` bytes of
`char files[MAX_FILES][MAX_WORDLENGTH]`.  The result is `i` and `files`. -/
def readdirLoop : List dirent → Nat → Mem → Res (Nat × Mem)
  | [], i, files => .ok (i, files)
  | entry :: rest, i, files =>
    if entry.d_type = DT_REG then
      if i < MAX_FILES then
        (strcpy ((i + 1) * MAX_WORDLENGTH) files (i * MAX_WORDLENGTH) entry.d_name).bind
          fun files1 => readdirLoop rest (i + 1) files1
      else .fault
    else readdirLoop rest i files

/-- The function `rand_file`: `dir` is `none` when `opendir` fails and the
listing of the directory otherwise, `r` is the value that `rand()` returns,
`file` is the destination, an array of `MAX_WORDLENGTH` bytes (`fname` of
`main`, lines 161 and 191, the only caller).  The result is the return value
and the array `file`. -/
def rand_file (dir : Option (List dirent)) (r : Nat) (file : Mem) : Res (Int × Mem) :=
  match dir with
  | none => .ok (-1, file)
  | some listing =>
    (readdirLoop listing 0 zeroMem).bind fun st =>
    if st.1 = 0 then .ok (-1, file)
    else
      (cstr ((r % st.1 + 1) * MAX_WORDLENGTH) st.2 ((r % st.1) * MAX_WORDLENGTH)).bind
        fun name => (strcpy MAX_WORDLENGTH file 0 name).bind fun file1 => .ok (1, file1)

/-! ## `start_interactive_choice` (lines 138-157) -/

/-- The decimal digits that `%d` prints for a non-negative integer. -/
def decimal (i : Nat) : Bytes := (Nat.toDigits 10 i).map Char.toNat

/-- Output of `printf("%d %s | ", i, w)`. -/
def menuItem (i : Nat) (w : Bytes) : Bytes :=
  decimal i ++ bytes " " ++ w ++ bytes " | "

/-- Output of `printf("\n ? ")`. -/
def prompt : Bytes := bytes "\n ? "

/-- Output of `printf("%s -> %s\n", w, d)`. -/
def line (w d : Bytes) : Bytes := w ++ bytes " -> " ++ d ++ bytes "\n"

/-- The menu loop (lines 143-144), with `cnt` iterations left from index `i`;
`out` is the list of the outputs of the `printf` calls so far. -/
def menuLoop (words : Mem) : Nat → Nat → List Bytes → Res (List Bytes)
  | 0, _, out => .ok out
  | cnt + 1, i, out =>
    (wordAt words i).bind fun w => menuLoop words cnt (i + 1) (out ++ [menuItem i w])

/-- The least value of an `int`. -/
def INT_MIN : Int := -2147483648

/-- The greatest value of an `int`. -/
def INT_MAX : Int := 2147483647

/-- The call `scanf("%d", &choice); getchar();` on standard input seen as the
sequence of integers still to be entered: the next integer is stored in the
`int` variable `choice`, which is undefined behaviour when it does not fit an
`int`; at the end of the input nothing is stored and `choice` keeps its value
(the return value of `scanf` is not looked at).  The result is `choice` and
the input left. -/
def scanChoice (input : List Int) (choice : Int) : Res (Int × List Int) :=
  match input with
  | [] => .ok (choice, [])
  | c :: rest => if INT_MIN ≤ c ∧ c ≤ INT_MAX then .ok (c, rest) else .fault

/-- The prompting loop (lines 146-156).  The result, when the loop is left, is
the input not consumed and the outputs of the `printf` calls. -/
def choiceLoop (words meanings : Mem) (n : Nat) :
    Nat → List Int → Int → List Bytes → Res (List Int × List Bytes)
  | 0, _, _, _ => .timeout
  | fuel + 1, input, choice, out =>
    (scanChoice input choice).bind fun s =>
    if s.1 ≥ (n : Int) then
      choiceLoop words meanings n fuel s.2 s.1 (out ++ [prompt])
    else if s.1 < 0 then
      .ok (s.2, out ++ [prompt])
    else
      (wordAt words s.1.toNat).bind fun w =>
      (wordAt meanings s.1.toNat).bind fun d =>
      choiceLoop words meanings n fuel s.2 s.1 (out ++ [prompt, line w d])

/-- The function `start_interactive_choice` on the integers `input` entered on
standard input, with at most `fuel` iterations of the prompting loop. -/
def start_interactive_choice (words meanings : Mem) (n : Nat) (fuel : Nat)
    (input : List Int) : Res (List Int × List Bytes) :=
  (menuLoop words n 0 []).bind fun out => choiceLoop words meanings n fuel input 0 out

/-! ## Random mode: `case 'r'` of `main` (lines 225-232) -/

/-- The skipping loop (lines 228-229): `while (strlen(words[irand]) <= 1) irand++;`
The result is the final `irand`. -/
def skipLoop (words : Mem) : Nat → Nat → Res Nat
  | 0, _ => .timeout
  | fuel + 1, irand =>
    (strlen words irand).bind fun len =>
    if len ≤ 1 then skipLoop words fuel (irand + 1) else .ok irand

/-- One iteration of the random-mode loop (lines 227-230), `r` being the value
that `rand()` returns: the result is the line printed. -/
def randomIter (words meanings : Mem) (n r : Nat) : Res Bytes :=
  if n = 0 then .fault
  else
    (skipLoop words (MAX_WORDS + 1) (r % n)).bind fun irand =>
    (wordAt words irand).bind fun w =>
    (wordAt meanings irand).bind fun d => .ok (line w d)

/-- The random-mode loop (line 226) with `cnt` iterations left from `i`; the
`i`-th call of `rand()` returns `rand i`. -/
def randomLoop (words meanings : Mem) (n : Nat) (rand : Nat → Nat) :
    Nat → Nat → List Bytes → Res (List Bytes)
  | 0, _, out => .ok out
  | cnt + 1, i, out =>
    (randomIter words meanings n (rand i)).bind fun l =>
    randomLoop words meanings n rand cnt (i + 1) (out ++ [l])

/-- The `case 'r'` block of `main`: `nrand` is the count given on the command
line, the result is the list of the lines printed. -/
def main_case_r (words meanings : Mem) (n : Nat) (nrand : Int) (rand : Nat → Nat) :
    Res (List Bytes) :=
  randomLoop words meanings n rand nrand.toNat 0 []

/-- The array in which row `i` holds the `i`-th string of `ss`, every other
byte being zero. -/
def rowsOf (ss : List Bytes) : Mem :=
  fun a => (ss.getD (a / MAX_WORDLENGTH) []).getD (a % MAX_WORDLENGTH) 0

/-! ## Auxiliary definitions for the statements -/

/-- The block `m` after the bytes of `s` are stored from offset `a` on. -/
def writeStr : Mem → Nat → Bytes → Mem
  | m, _, [] => m
  | m, a, c :: s => writeStr (Function.update m a c) (a + 1) s

/-- The array `m` after the strings of `ss` are stored at the start of the
rows `k`, `k + 1`, ... -/
def writeRows : Mem → Nat → List Bytes → Mem
  | m, _, [] => m
  | m, k, s :: ss => writeRows (writeStr m (k * MAX_WORDLENGTH) s) (k + 1) ss

/-- The block `buf` holds the bytes of `l` from offset `a` on. -/
def holds (buf : Mem) : Nat → Bytes → Prop
  | _, [] => True
  | a, c :: l => buf a = c ∧ holds buf (a + 1) l

/-- An entry that the record loop reads back as it was written: no NUL, no
`':'` in the word, no newline in the definition, and room for the
terminating NUL in a row. -/
def wellFormed (e : Bytes × Bytes) : Prop :=
  (∀ c ∈ e.1, c ≠ 0 ∧ c ≠ 58) ∧ (∀ c ∈ e.2, c ≠ 0 ∧ c ≠ 10)
    ∧ e.1.length < MAX_WORDLENGTH ∧ e.2.length < MAX_WORDLENGTH

/-- The entry that the record loop makes of a run of bytes `t` that no newline
ends: the word is `t` up to its first `':'`, the definition is what follows
that `':'`. -/
def trailingEntry (t : Bytes) : Bytes × Bytes :=
  (t.takeWhile (fun c => c ≠ 58), (t.dropWhile (fun c => c ≠ 58)).drop 1)

/-- The outputs of the prompting loop on the inputs `xs`, none of them
negative: a prompt for each, followed by the line of the entry when the input
is below `n`. -/
def choiceOutput (W D : Nat → Bytes) (n : Nat) : List Int → List Bytes
  | [] => []
  | x :: xs =>
    (if x < (n : Int) then [prompt, line (W x.toNat) (D x.toNat)] else [prompt])
      ++ choiceOutput W D n xs

/-! ## Concrete inputs -/

/-- The entry set `[(cat, feline), (dog, canine)]`. -/
def catDog : List (Bytes × Bytes) :=
  [(bytes "cat", bytes "feline"), (bytes "dog", bytes "canine")]

/-- Two records, the first with a word of 128 bytes `a`. -/
def longWord : List (Bytes × Bytes) :=
  [(List.replicate 128 97, bytes "x"), (bytes "b", bytes "y")]

/-- A directory with `.` and one regular file whose name is 128 bytes `a`. -/
def longNameDir : List dirent := [⟨4, bytes "."⟩, ⟨8, List.replicate 128 97⟩]

/-- A file of 4100 bytes: the record `a:b`, 4092 NUL bytes, the record `c:d`. -/
def bigFile1 : Bytes := bytes "a:b\n" ++ List.replicate 4092 0 ++ bytes "c:d\n"

/-- A file of 4104 bytes with the same first 4096 bytes as `bigFile1`. -/
def bigFile2 : Bytes := bytes "a:b\n" ++ List.replicate 4092 0 ++ bytes "c:d\ne:f\n"

/-! ## Lemmas on results and memory -/

@[simp] theorem bind_ok {α β : Type} (a : α) (f : α → Res β) :
    (Res.ok a).bind f = f a := rfl

@[simp] theorem bind_fault {α β : Type} (f : α → Res β) :
    (Res.fault : Res α).bind f = .fault := rfl

@[simp] theorem bind_timeout {α β : Type} (f : α → Res β) :
    (Res.timeout : Res α).bind f = .timeout := rfl

theorem holds_append (buf : Mem) (l1 l2 : Bytes) (a : Nat) :
    holds buf a (l1 ++ l2) ↔ holds buf a l1 ∧ holds buf (a + l1.length) l2 := by
  induction l1 generalizing a with
  | nil => simp [holds]
  | cons c l ih =>
    show (buf a = c ∧ holds buf (a + 1) (l ++ l2))
      ↔ (buf a = c ∧ holds buf (a + 1) l) ∧ holds buf (a + (l.length + 1)) l2
    rw [ih, show a + (l.length + 1) = a + 1 + l.length by omega]
    tauto

theorem holds_of_getD (buf : Mem) (l : Bytes) (a : Nat)
    (h : ∀ j, j < l.length → buf (a + j) = l.getD j 0) : holds buf a l := by
  induction l generalizing a with
  | nil => trivial
  | cons c l ih =>
    refine ⟨?_, ih (a + 1) ?_⟩
    · simpa using h 0 (by simp)
    · intro j hj
      have := h (j + 1) (by simpa using hj)
      rw [show a + 1 + j = a + (j + 1) by omega, this]
      simp

theorem writeStr_below (m : Mem) (a : Nat) (s : Bytes) (x : Nat) (hx : x < a) :
    writeStr m a s x = m x := by
  induction s generalizing m a with
  | nil => rfl
  | cons c s ih =>
    rw [writeStr, ih _ _ (by omega), Function.update_noteq (by omega)]

theorem writeStr_above (m : Mem) (a : Nat) (s : Bytes) (x : Nat) (hx : a + s.length ≤ x) :
    writeStr m a s x = m x := by
  induction s generalizing m a with
  | nil => rfl
  | cons c s ih =>
    simp only [List.length_cons] at hx
    rw [writeStr, ih _ _ (by omega), Function.update_noteq (by omega)]

theorem writeStr_at (m : Mem) (a : Nat) (s : Bytes) (j : Nat) (hj : j < s.length) :
    writeStr m a s (a + j) = s.getD j 0 := by
  induction s generalizing m a j with
  | nil => simp at hj
  | cons c s ih =>
    cases j with
    | zero =>
      rw [writeStr, writeStr_below _ _ _ _ (by omega)]
      simp
    | succ j =>
      simp only [List.length_cons] at hj
      rw [writeStr, show a + (j + 1) = a + 1 + j by omega, ih _ _ _ (by omega)]
      simp

theorem writeRows_below (m : Mem) (k : Nat) (ss : List Bytes) (x : Nat)
    (hx : x < k * MAX_WORDLENGTH) : writeRows m k ss x = m x := by
  induction ss generalizing m k with
  | nil => rfl
  | cons s ss ih =>
    rw [writeRows, ih _ _ (by simp only [MAX_WORDLENGTH] at hx ⊢; omega),
      writeStr_below _ _ _ _ hx]

theorem writeRows_append (m : Mem) (k : Nat) (s1 s2 : List Bytes) :
    writeRows m k (s1 ++ s2) = writeRows (writeRows m k s1) (k + s1.length) s2 := by
  induction s1 generalizing m k with
  | nil => rfl
  | cons s ss ih =>
    show writeRows (writeStr m (k * MAX_WORDLENGTH) s) (k + 1) (ss ++ s2)
      = writeRows (writeRows (writeStr m (k * MAX_WORDLENGTH) s) (k + 1) ss)
          (k + (ss.length + 1)) s2
    rw [ih, show k + (ss.length + 1) = k + 1 + ss.length by omega]

/-- Row `k + i` of the array after `writeRows`: the `i`-th string, then the
bytes that were there. -/
theorem writeRows_row (m : Mem) (k : Nat) (ss : List Bytes) (i j : Nat)
    (hlen : ∀ s ∈ ss, s.length ≤ MAX_WORDLENGTH) (hi : i < ss.length)
    (hj : j < MAX_WORDLENGTH) :
    writeRows m k ss ((k + i) * MAX_WORDLENGTH + j)
      = if j < (ss.getD i []).length then (ss.getD i []).getD j 0
        else m ((k + i) * MAX_WORDLENGTH + j) := by
  simp only [MAX_WORDLENGTH] at hlen hj
  induction ss generalizing m k i with
  | nil => simp at hi
  | cons s ss ih =>
    have hs : s.length ≤ 128 := hlen s (by simp)
    cases i with
    | zero =>
      rw [writeRows, writeRows_below _ _ _ _ (by simp only [MAX_WORDLENGTH]; omega)]
      simp only [Nat.add_zero, List.getD_cons_zero]
      split
      · rename_i h
        exact writeStr_at _ _ _ _ h
      · rename_i h
        exact writeStr_above _ _ _ _ (by omega)
    | succ i =>
      simp only [List.length_cons] at hi
      rw [writeRows, show k + (i + 1) = k + 1 + i by omega,
        ih _ _ _ (fun t ht => hlen t (by simp [ht])) (by omega)]
      simp only [List.getD_cons_succ]
      rw [writeStr_above _ _ _ _ (by simp only [MAX_WORDLENGTH]; omega)]

theorem cstrAux_of_holds (m : Mem) (s : Bytes) (k a : Nat) (hk : s.length < k)
    (hs : ∀ c ∈ s, c ≠ 0) (h : holds m a (s ++ [0])) : cstrAux m k a = .ok s := by
  induction s generalizing k a with
  | nil =>
    obtain ⟨k, rfl⟩ : ∃ k', k = k' + 1 := ⟨k - 1, by simp at hk; omega⟩
    simp only [List.nil_append, holds] at h
    simp [cstrAux, h.1]
  | cons c s ih =>
    obtain ⟨k, rfl⟩ : ∃ k', k = k' + 1 := ⟨k - 1, by simp at hk; omega⟩
    simp only [List.cons_append, holds] at h
    simp only [List.length_cons] at hk
    have hc : c ≠ 0 := hs c (by simp)
    rw [cstrAux, h.1, if_neg hc, ih k (a + 1) (by omega) (fun x hx => hs x (by simp [hx])) h.2]
    rfl

theorem cstr_of_holds (size : Nat) (m : Mem) (s : Bytes) (a : Nat)
    (ha : a + s.length < size) (hs : ∀ c ∈ s, c ≠ 0) (h : holds m a (s ++ [0])) :
    cstr size m a = .ok s :=
  cstrAux_of_holds m s (size - a) a (by omega) hs h

/-! ## Lemmas on `fill_dict` -/

/-- The copying loop on a buffer that holds `s` and then a byte that stops
the loop: `s` is stored and `ibuf` is left on the stopping byte. -/
theorem copyLoop_eq (buf : Mem) (stop iwords : Nat) (s : Bytes) (t : Nat)
    (fuel ibuf i : Nat) (arr : Mem)
    (hs : ∀ c ∈ s, c ≠ 0 ∧ c ≠ stop) (ht : t = 0 ∨ t = stop)
    (hb : holds buf ibuf (s ++ [t])) (hbuf : ibuf + s.length < BUFSIZE)
    (harr : iwords * MAX_WORDLENGTH + i + s.length ≤ WORDS_SIZE) (hf : s.length < fuel) :
    copyLoop buf stop iwords fuel ibuf i arr
      = .ok (ibuf + s.length, writeStr arr (iwords * MAX_WORDLENGTH + i) s) := by
  induction s generalizing fuel ibuf i arr with
  | nil =>
    obtain ⟨fuel, rfl⟩ : ∃ f, fuel = f + 1 := ⟨fuel - 1, by simp at hf; omega⟩
    have hb1 : buf ibuf = t := hb.1
    have hstop : ¬ (buf ibuf ≠ 0 ∧ buf ibuf ≠ stop) := by
      rw [hb1]; rcases ht with h | h <;> simp [h]
    simp only [List.length_nil, Nat.add_zero] at hbuf
    rw [copyLoop, if_neg (by omega), if_neg hstop]
    rfl
  | cons c s ih =>
    obtain ⟨fuel, rfl⟩ : ∃ f, fuel = f + 1 := ⟨fuel - 1, by simp at hf; omega⟩
    have hb1 : buf ibuf = c := hb.1
    have hb2 : holds buf (ibuf + 1) (s ++ [t]) := hb.2
    have hc : c ≠ 0 ∧ c ≠ stop := hs c (by simp)
    simp only [List.length_cons] at hbuf harr hf
    rw [copyLoop, if_neg (by omega), hb1, if_pos hc, if_pos (by omega),
      ih fuel (ibuf + 1) (i + 1) _ (fun x hx => hs x (by simp [hx])) hb2 (by omega)
        (by omega) (by omega)]
    simp only [List.length_cons, writeStr]
    rw [show ibuf + 1 + s.length = ibuf + (s.length + 1) by omega,
      show iwords * MAX_WORDLENGTH + (i + 1) = iwords * MAX_WORDLENGTH + i + 1 by omega]

/-- One iteration of the record loop on a buffer that holds a word, a byte
that ends the word loop, a definition and a byte that ends the meaning loop. -/
theorem recordLoop_step (buf : Mem) (w d : Bytes) (s1 s2 : Nat)
    (fuel ibuf iwords : Nat) (words meanings : Mem)
    (hw : ∀ c ∈ w, c ≠ 0 ∧ c ≠ 58) (hd : ∀ c ∈ d, c ≠ 0 ∧ c ≠ 10)
    (h1 : s1 = 0 ∨ s1 = 58) (h2 : s2 = 0 ∨ s2 = 10)
    (hne : buf ibuf ≠ 0)
    (hb : holds buf ibuf (w ++ s1 :: (d ++ [s2])))
    (hbuf : ibuf + w.length + d.length + 1 < BUFSIZE)
    (hwl : w.length ≤ MAX_WORDLENGTH) (hdl : d.length ≤ MAX_WORDLENGTH)
    (hk : iwords < MAX_WORDS) :
    recordLoop buf (fuel + 1) ibuf iwords words meanings
      = recordLoop buf fuel (ibuf + w.length + d.length + 2) (iwords + 1)
          (writeStr words (iwords * MAX_WORDLENGTH) w)
          (writeStr meanings (iwords * MAX_WORDLENGTH) d) := by
  have hbw : holds buf ibuf (w ++ [s1]) := by
    rw [show w ++ s1 :: (d ++ [s2]) = (w ++ [s1]) ++ (d ++ [s2]) by simp] at hb
    exact ((holds_append _ _ _ _).1 hb).1
  have hbd : holds buf (ibuf + w.length + 1) (d ++ [s2]) := by
    rw [show w ++ s1 :: (d ++ [s2]) = (w ++ [s1]) ++ (d ++ [s2]) by simp] at hb
    have := ((holds_append _ _ _ _).1 hb).2
    simpa [Nat.add_assoc] using this
  have hsz : iwords * MAX_WORDLENGTH + MAX_WORDLENGTH ≤ WORDS_SIZE := by
    simp only [MAX_WORDLENGTH, WORDS_SIZE, MAX_WORDS] at hk ⊢; omega
  have hB : BUFSIZE = 4096 := rfl
  rw [recordLoop, if_neg (by omega), if_neg hne,
    copyLoop_eq buf 58 iwords w s1 (BUFSIZE + 1) ibuf 0 words hw h1 hbw (by omega)
      (by omega) (by omega), bind_ok]
  simp only []
  rw [copyLoop_eq buf 10 iwords d s2 (BUFSIZE + 1) (ibuf + w.length + 1) 0 meanings hd h2 hbd
      (by omega) (by omega) (by omega), bind_ok]
  simp only [Nat.add_zero]
  rw [show ibuf + w.length + 1 + d.length + 1 = ibuf + w.length + d.length + 2 by omega]

/-- The record loop stops on a NUL byte. -/
theorem recordLoop_end (buf : Mem) (fuel ibuf iwords : Nat) (words meanings : Mem)
    (h0 : buf ibuf = 0) (hbuf : ibuf < BUFSIZE) :
    recordLoop buf (fuel + 1) ibuf iwords words meanings = .ok (iwords, words, meanings) := by
  rw [recordLoop, if_neg (by omega), if_pos h0]

/-- The record loop over a run of well-formed records: one entry per record,
in order. -/
theorem recordLoop_records (buf : Mem) (es : List (Bytes × Bytes))
    (fuel ibuf k : Nat) (words meanings : Mem)
    (hwf : ∀ e ∈ es, wellFormed e)
    (hb : holds buf ibuf (serialize es))
    (hbuf : ibuf + (serialize es).length ≤ BUFSIZE)
    (hk : k + es.length ≤ MAX_WORDS) :
    recordLoop buf (fuel + es.length) ibuf k words meanings
      = recordLoop buf fuel (ibuf + (serialize es).length) (k + es.length)
          (writeRows words k (es.map Prod.fst)) (writeRows meanings k (es.map Prod.snd)) := by
  induction es generalizing ibuf k words meanings with
  | nil => rfl
  | cons e es ih =>
    obtain ⟨hw, hd, hwl, hdl⟩ := hwf e (by simp)
    have hser : serialize (e :: es) = (e.1 ++ 58 :: (e.2 ++ [10])) ++ serialize es := by
      simp [serialize]
    have hlen : (serialize (e :: es)).length
        = e.1.length + e.2.length + 2 + (serialize es).length := by
      rw [hser]; simp; omega
    rw [hser] at hb
    obtain ⟨hb1, hb2⟩ := (holds_append _ _ _ _).1 hb
    have hne : buf ibuf ≠ 0 := by
      cases hw1 : e.1 with
      | nil =>
        rw [hw1] at hb1
        have : buf ibuf = 58 := hb1.1
        omega
      | cons c w =>
        rw [hw1] at hb1
        have h : buf ibuf = c := hb1.1
        have := (hw c (by simp [hw1])).1
        omega
    simp only [List.length_cons] at hk
    rw [hlen] at hbuf
    rw [show fuel + (e :: es).length = (fuel + es.length) + 1 by simp; omega,
      recordLoop_step buf e.1 e.2 58 10 _ ibuf k words meanings hw hd (Or.inr rfl) (Or.inr rfl)
        hne hb1 (by omega) (by omega) (by omega) (by omega),
      ih (ibuf + e.1.length + e.2.length + 2) (k + 1) _ _ (fun x hx => hwf x (by simp [hx]))
        (by simpa [Nat.add_assoc, Nat.add_comm, Nat.add_left_comm] using hb2)
        (by omega) (by omega)]
    simp only [List.map_cons, writeRows, hlen, List.length_cons]
    rw [show ibuf + e.1.length + e.2.length + 2 + (serialize es).length
        = ibuf + (e.1.length + e.2.length + 2 + (serialize es).length) by omega,
      show k + 1 + es.length = k + (es.length + 1) by omega]

/-- Row `i` of a zeroed array after `writeRows`, read as a C string. -/
theorem wordAt_writeRows (ss : List Bytes) (i : Nat)
    (hlen : ∀ s ∈ ss, s.length < MAX_WORDLENGTH) (h0 : ∀ s ∈ ss, ∀ c ∈ s, c ≠ 0)
    (hn : ss.length ≤ MAX_WORDS) (hi : i < ss.length) :
    wordAt (writeRows zeroMem 0 ss) i = .ok (ss.getD i []) := by
  have hmem : ss.getD i [] ∈ ss := by
    rw [List.getD_eq_getElem _ _ hi]; exact List.getElem_mem _
  have hl : (ss.getD i []).length < 128 := hlen _ hmem
  refine cstr_of_holds _ _ _ _ ?_ (h0 _ hmem) (holds_of_getD _ _ _ ?_)
  · simp only [WORDS_SIZE, MAX_WORDS, MAX_WORDLENGTH] at hn ⊢; omega
  · intro j hj
    simp only [List.length_append, List.length_singleton] at hj
    have := writeRows_row zeroMem 0 ss i j (fun s hs => Nat.le_of_lt (hlen s hs)) hi
      (by simp only [MAX_WORDLENGTH]; omega)
    rw [Nat.zero_add] at this
    rw [this]
    by_cases hjl : j < (ss.getD i []).length
    · rw [if_pos hjl, List.getD_append _ _ _ _ hjl]
    · rw [if_neg hjl, List.getD_append_right _ _ _ _ (by omega),
        show j - (ss.getD i []).length = 0 by omega]
      rfl

/-- Reading the entries back from zeroed arrays in which they were stored. -/
theorem readDict_writeRows (es pre suf : List (Bytes × Bytes))
    (hes : es = pre ++ suf)
    (hwf : ∀ e ∈ es, (∀ c ∈ e.1, c ≠ 0) ∧ (∀ c ∈ e.2, c ≠ 0)
      ∧ e.1.length < MAX_WORDLENGTH ∧ e.2.length < MAX_WORDLENGTH)
    (hn : es.length ≤ MAX_WORDS) :
    readDict (writeRows zeroMem 0 (es.map Prod.fst)) (writeRows zeroMem 0 (es.map Prod.snd))
      suf.length pre.length = .ok suf := by
  induction suf generalizing pre with
  | nil => rfl
  | cons e suf ih =>
    have hi : pre.length < es.length := by rw [hes]; simp
    have hw := wordAt_writeRows (es.map Prod.fst) pre.length
      (by intro s hs; obtain ⟨x, hx, rfl⟩ := List.mem_map.1 hs; exact (hwf x hx).2.2.1)
      (by intro s hs; obtain ⟨x, hx, rfl⟩ := List.mem_map.1 hs; exact (hwf x hx).1)
      (by simpa using hn) (by simpa using hi)
    have hd := wordAt_writeRows (es.map Prod.snd) pre.length
      (by intro s hs; obtain ⟨x, hx, rfl⟩ := List.mem_map.1 hs; exact (hwf x hx).2.2.2)
      (by intro s hs; obtain ⟨x, hx, rfl⟩ := List.mem_map.1 hs; exact (hwf x hx).2.1)
      (by simpa using hn) (by simpa using hi)
    have hw1 : (es.map Prod.fst).getD pre.length [] = e.1 := by
      rw [hes, List.map_append, List.getD_append_right _ _ _ _ (by simp)]; simp
    have hd1 : (es.map Prod.snd).getD pre.length [] = e.2 := by
      rw [hes, List.map_append, List.getD_append_right _ _ _ _ (by simp)]; simp
    rw [hw1] at hw
    rw [hd1] at hd
    have hrest := ih (pre ++ [e]) (by rw [hes]; simp)
    simp only [List.length_append, List.length_singleton] at hrest
    rw [List.length_cons, readDict, hw, bind_ok, hd, bind_ok, hrest, bind_ok]

/-- At the end of the file `read` returns 0 and the reading loop is left. -/
theorem readLoop_eof (file : Bytes) (fuel off : Nat) (buf : Mem) (k : Nat)
    (words meanings : Mem) (h : file.length ≤ off) :
    readLoop file (fuel + 1) off buf k words meanings = .ok (k, words, meanings) := by
  have hr : read file off = [] := by simp [read, List.drop_eq_nil_of_le h]
  rw [readLoop, hr]
  rfl

/-- A file that one `read` delivers whole: `fill_dict` is the record loop on
the zeroed buffer overwritten by the file. -/
theorem fill_dict_single (file : Bytes) (words meanings : Mem)
    (hne : file ≠ []) (hlen : file.length ≤ BUFSIZE) :
    fill_dict file words meanings
      = recordLoop (bufAfter zeroMem file) (BUFSIZE + 1) 0 0 words meanings := by
  have hr0 : read file 0 = file := by
    simp only [read, List.drop_zero]; exact List.take_of_length_le hlen
  have hpos : file.length ≠ 0 := by
    intro h; exact hne (List.length_eq_zero.1 h)
  obtain ⟨f, hf⟩ : ∃ f, file.length = f + 1 := ⟨file.length - 1, by omega⟩
  rw [fill_dict, readLoop, hr0, if_neg hpos]
  cases hrl : recordLoop (bufAfter zeroMem file) (BUFSIZE + 1) 0 0 words meanings with
  | ok r =>
    rw [bind_ok, show readLoop file file.length = readLoop file (f + 1) by rw [hf],
      readLoop_eof _ _ _ _ _ _ _ (by omega)]
  | fault => rfl
  | timeout => rfl

/-- The zeroed buffer after the `read` of a whole file holds the file. -/
theorem holds_bufAfter (buf : Mem) (file : Bytes) : holds (bufAfter buf file) 0 file :=
  holds_of_getD _ _ _ (fun j hj => by simp only [bufAfter, Nat.zero_add, if_pos hj])

/-- Beyond the bytes read, the buffer after the first `read` is zero. -/
theorem bufAfter_zero (file : Bytes) (j : Nat) (hj : file.length ≤ j) :
    bufAfter zeroMem file j = 0 := by
  simp only [bufAfter, if_neg (Nat.not_lt.2 hj)]; rfl

/-- The zeroed buffer after the `read` of a whole file holds the file and
then zeros. -/
theorem holds_bufAfter_pad (file : Bytes) (n : Nat) :
    holds (bufAfter zeroMem file) 0 (file ++ List.replicate n 0) := by
  rw [holds_append]
  refine ⟨holds_bufAfter _ _, holds_of_getD _ _ _ (fun j hj => ?_)⟩
  rw [bufAfter_zero _ _ (by omega)]
  simp only [List.length_replicate] at hj
  simp [List.getElem?_replicate, hj]

/-- The record loop on a buffer that holds the serialisation of well-formed
entries and then a NUL: one entry per record, stored in the rows from `k` on. -/
theorem recordLoop_serialize (buf : Mem) (es : List (Bytes × Bytes)) (k : Nat)
    (words meanings : Mem) (hwf : ∀ e ∈ es, wellFormed e)
    (hb : holds buf 0 (serialize es ++ [0]))
    (hlen : (serialize es).length < BUFSIZE) (hk : k + es.length ≤ MAX_WORDS) :
    recordLoop buf (BUFSIZE + 1) 0 k words meanings
      = .ok (k + es.length, writeRows words k (es.map Prod.fst),
          writeRows meanings k (es.map Prod.snd)) := by
  have hB : BUFSIZE = 4096 := rfl
  have hM : MAX_WORDS = 256 := rfl
  obtain ⟨hb1, hb2⟩ := (holds_append _ _ _ _).1 hb
  have h1 := recordLoop_records buf es (BUFSIZE - es.length) 0 k words meanings hwf hb1
    (by omega) hk
  rw [show BUFSIZE - es.length + es.length = BUFSIZE by omega] at h1
  rw [show BUFSIZE + 1 = BUFSIZE - es.length + es.length + 1 by omega,
    show BUFSIZE - es.length + es.length + 1 = (BUFSIZE - es.length + 1) + es.length by omega,
    recordLoop_records buf es (BUFSIZE - es.length + 1) 0 k words meanings hwf hb1
      (by omega) hk,
    recordLoop_end _ _ _ _ _ _ hb2.1 (by omega)]

/-- The arrays that `fill_dict` leaves on the serialisation of well-formed
entries that fit the buffer and the arrays. -/
theorem fill_dict_serialize (es : List (Bytes × Bytes))
    (hwf : ∀ e ∈ es, wellFormed e) (hn : es.length ≤ MAX_WORDS)
    (hlen : (serialize es).length < BUFSIZE) :
    fill_dict (serialize es) zeroMem zeroMem
      = .ok (es.length, writeRows zeroMem 0 (es.map Prod.fst),
          writeRows zeroMem 0 (es.map Prod.snd)) := by
  by_cases hnil : serialize es = []
  · have : es = [] := by
      cases es with
      | nil => rfl
      | cons e es => simp [serialize] at hnil
    subst this
    rfl
  · rw [fill_dict_single _ _ _ hnil (Nat.le_of_lt hlen),
      recordLoop_serialize _ es 0 _ _ hwf (holds_bufAfter_pad _ 1) hlen (by omega),
      Nat.zero_add]

/-- A well-formed entry has no NUL and leaves room for the terminating NUL. -/
theorem wellFormed_readable (e : Bytes × Bytes) (h : wellFormed e) :
    (∀ c ∈ e.1, c ≠ 0) ∧ (∀ c ∈ e.2, c ≠ 0)
      ∧ e.1.length < MAX_WORDLENGTH ∧ e.2.length < MAX_WORDLENGTH :=
  ⟨fun c hc => (h.1 c hc).1, fun c hc => (h.2.1 c hc).1, h.2.2.1, h.2.2.2⟩

/-- On the serialisation of well-formed entries that fit the buffer and the
arrays, `fill_dict` yields exactly the entries. -/
theorem parse_serialize (es : List (Bytes × Bytes))
    (hwf : ∀ e ∈ es, wellFormed e) (hn : es.length ≤ MAX_WORDS)
    (hlen : (serialize es).length < BUFSIZE) :
    parse_file (serialize es) = .ok (es.length, es) := by
  have hrd := readDict_writeRows es [] es rfl
    (fun e he => wellFormed_readable e (hwf e he)) hn
  rw [List.length_nil] at hrd
  rw [parse_file, fill_dict_serialize es hwf hn hlen, bind_ok]
  simp only []
  rw [hrd, bind_ok]

/-- A run of bytes is its word part alone, or its word part, a `':'` and its
definition part. -/
theorem trailingEntry_split (t : Bytes) :
    (∀ c ∈ (trailingEntry t).1, c ≠ 58)
      ∧ ((t = (trailingEntry t).1 ∧ (trailingEntry t).2 = [])
        ∨ t = (trailingEntry t).1 ++ 58 :: (trailingEntry t).2) := by
  induction t with
  | nil => simp [trailingEntry]
  | cons c t ih =>
    by_cases hc : c = 58
    · subst hc
      simp [trailingEntry, List.takeWhile, List.dropWhile]
    · obtain ⟨h1, h2⟩ := ih
      have e1 : (trailingEntry (c :: t)).1 = c :: (trailingEntry t).1 := by
        simp [trailingEntry, List.takeWhile, hc]
      have e2 : (trailingEntry (c :: t)).2 = (trailingEntry t).2 := by
        simp [trailingEntry, List.dropWhile, hc]
      rw [e1, e2]
      refine ⟨?_, ?_⟩
      · intro x hx
        rcases List.mem_cons.1 hx with rfl | hx
        · exact hc
        · exact h1 x hx
      · rcases h2 with ⟨h, h'⟩ | h
        · left; exact ⟨by rw [← h], h'⟩
        · right; rw [List.cons_append, ← h]

/-- On the serialisation of well-formed entries followed by a non-empty run
of bytes without NUL and newline, `fill_dict` yields the entries and one more
entry made of the run. -/
theorem parse_trailing (es : List (Bytes × Bytes)) (t : Bytes)
    (hwf : ∀ e ∈ es, wellFormed e) (ht : t ≠ [])
    (ht0 : ∀ c ∈ t, c ≠ 0 ∧ c ≠ 10)
    (hl1 : (trailingEntry t).1.length < MAX_WORDLENGTH)
    (hl2 : (trailingEntry t).2.length < MAX_WORDLENGTH)
    (hn : es.length + 1 ≤ MAX_WORDS)
    (hlen : (serialize es ++ t).length + 2 < BUFSIZE) :
    parse_file (serialize es ++ t) = .ok (es.length + 1, es ++ [trailingEntry t]) := by
  have hB : BUFSIZE = 4096 := rfl
  have hM : MAX_WORDS = 256 := rfl
  obtain ⟨hcol, hsplit⟩ := trailingEntry_split t
  generalize hte : trailingEntry t = te at hcol hsplit hl1 hl2
  obtain ⟨tw, td⟩ := te
  simp only at hcol hsplit hl1 hl2
  -- the bytes of the run
  have hmem : (∀ c ∈ tw, c ∈ t) ∧ (∀ c ∈ td, c ∈ t) := by
    rcases hsplit with ⟨h, h'⟩ | h
    · subst h'; exact ⟨fun c hc => by rw [h]; exact hc, fun c hc => by simp at hc⟩
    · exact ⟨fun c hc => by rw [h]; simp [hc], fun c hc => by rw [h]; simp [hc]⟩
  have hw : ∀ c ∈ tw, c ≠ 0 ∧ c ≠ 58 := fun c hc => ⟨(ht0 c (hmem.1 c hc)).1, hcol c hc⟩
  have hd : ∀ c ∈ td, c ≠ 0 ∧ c ≠ 10 := fun c hc => ht0 c (hmem.2 c hc)
  have hfl : (serialize es ++ t).length = (serialize es).length + t.length := by simp
  -- the buffer
  have hne : serialize es ++ t ≠ [] := by simp [ht]
  have hpad := holds_bufAfter_pad (serialize es ++ t) 2
  rw [List.append_assoc, holds_append, Nat.zero_add] at hpad
  obtain ⟨hb1, hb2⟩ := hpad
  have hz : ∀ j, (serialize es ++ t).length ≤ j → bufAfter zeroMem (serialize es ++ t) j = 0 :=
    fun j hj => bufAfter_zero _ _ hj
  have hfirst : bufAfter zeroMem (serialize es ++ t) (serialize es).length ≠ 0 := by
    cases t with
    | nil => exact absurd rfl ht
    | cons c t =>
      have h : bufAfter zeroMem (serialize es ++ c :: t) (serialize es).length = c := hb2.1
      rw [h]; exact (ht0 c (by simp)).1
  -- the loop
  have hloop : recordLoop (bufAfter zeroMem (serialize es ++ t)) (BUFSIZE + 1) 0 0 zeroMem zeroMem
      = .ok (es.length + 1, writeRows zeroMem 0 ((es ++ [(tw, td)]).map Prod.fst),
          writeRows zeroMem 0 ((es ++ [(tw, td)]).map Prod.snd)) := by
    rw [show BUFSIZE + 1 = (BUFSIZE - 1 - es.length + 1 + 1) + es.length by omega,
      recordLoop_records _ es _ 0 0 zeroMem zeroMem hwf hb1 (by omega) (by omega), Nat.zero_add,
      Nat.zero_add]
    have hrows : ∀ (f : Bytes × Bytes → Bytes),
        writeRows zeroMem 0 ((es ++ [(tw, td)]).map f)
          = writeStr (writeRows zeroMem 0 (es.map f)) (es.length * MAX_WORDLENGTH) (f (tw, td)) := by
      intro f
      rw [List.map_append, writeRows_append, List.length_map, Nat.zero_add]
      rfl
    rw [hrows, hrows]
    rcases hsplit with ⟨h, h'⟩ | h
    · subst h'
      have hb : holds (bufAfter zeroMem (serialize es ++ t)) (serialize es).length
          (tw ++ 0 :: ([] ++ [0])) := by
        rw [← h]; exact hb2
      have htl : t.length = tw.length := by rw [← h]
      rw [recordLoop_step _ tw [] 0 0 _ _ _ _ _ hw (by simp) (Or.inl rfl) (Or.inl rfl) hfirst hb
          (by simp only [List.length_nil]; omega) (by omega) (by simp) (by omega),
        recordLoop_end _ _ _ _ _ _ (hz _ (by simp only [List.length_nil]; omega))
          (by simp only [List.length_nil]; omega)]
    · have hb : holds (bufAfter zeroMem (serialize es ++ t)) (serialize es).length
          (tw ++ 58 :: (td ++ [0])) := by
        have h2 : t ++ List.replicate 2 0 = (tw ++ 58 :: (td ++ [0])) ++ [0] := by
          rw [h]; simp [List.replicate]
        rw [h2, holds_append] at hb2
        exact hb2.1
      have htl : t.length = tw.length + td.length + 1 := by rw [h]; simp; omega
      rw [recordLoop_step _ tw td 58 0 _ _ _ _ _ hw hd (Or.inr rfl) (Or.inl rfl) hfirst hb
          (by omega) (by omega) (by omega) (by omega),
        recordLoop_end _ _ _ _ _ _ (hz _ (by omega)) (by omega)]
  -- reading the entries back
  have hrd := readDict_writeRows (es ++ [(tw, td)]) [] (es ++ [(tw, td)]) rfl
    (by
      intro e he
      rcases List.mem_append.1 he with he | he
      · exact wellFormed_readable e (hwf e he)
      · rw [List.mem_singleton.1 he]
        exact ⟨fun c hc => (hw c hc).1, fun c hc => (hd c hc).1, hl1, hl2⟩)
    (by simp; omega)
  rw [List.length_nil] at hrd
  rw [parse_file, fill_dict_single _ _ _ hne (by omega), hloop, bind_ok]
  simp only []
  have hlen2 : (es ++ [(tw, td)]).length = es.length + 1 := by simp
  rw [hlen2] at hrd
  rw [hrd, bind_ok]

/-- A file that two `read` calls deliver, the first one filling the buffer:
`fill_dict` is the record loop on the first chunk, then the record loop on the
buffer overwritten by the second chunk, the count of entries being kept. -/
theorem fill_dict_two (c1 c2 : Bytes) (words meanings : Mem)
    (h1 : c1.length = BUFSIZE) (hne : c2 ≠ []) (h2 : c2.length ≤ BUFSIZE) :
    fill_dict (c1 ++ c2) words meanings
      = (recordLoop (bufAfter zeroMem c1) (BUFSIZE + 1) 0 0 words meanings).bind fun r =>
          recordLoop (bufAfter (bufAfter zeroMem c1) c2) (BUFSIZE + 1) 0 r.1 r.2.1 r.2.2 := by
  have hB : BUFSIZE = 4096 := rfl
  have hr0 : read (c1 ++ c2) 0 = c1 := by
    simp only [read, List.drop_zero]; exact List.take_left' h1
  have hr1 : read (c1 ++ c2) (0 + c1.length) = c2 := by
    simp only [read, Nat.zero_add, List.drop_left]; exact List.take_of_length_le h2
  have hpos : c2.length ≠ 0 := by
    intro h; exact hne (List.length_eq_zero.1 h)
  obtain ⟨f, hf⟩ : ∃ f, (c1 ++ c2).length = f + 1 + 1 :=
    ⟨(c1 ++ c2).length - 2, by simp only [List.length_append]; omega⟩
  rw [fill_dict, readLoop, hr0, if_neg (by omega)]
  cases hrl : recordLoop (bufAfter zeroMem c1) (BUFSIZE + 1) 0 0 words meanings with
  | ok r =>
    rw [bind_ok, bind_ok,
      show readLoop (c1 ++ c2) (c1 ++ c2).length = readLoop (c1 ++ c2) (f + 1 + 1) by rw [hf],
      readLoop, hr1, if_neg hpos]
    cases hrl2 : recordLoop (bufAfter (bufAfter zeroMem c1) c2) (BUFSIZE + 1) 0 r.1 r.2.1 r.2.2 with
    | ok r2 =>
      rw [bind_ok, readLoop_eof _ _ _ _ _ _ _ (by simp only [List.length_append]; omega)]
    | fault => rfl
    | timeout => rfl
  | fault => rfl
  | timeout => rfl

/-- A file whose first `BUFSIZE` bytes are the serialisation of `es1` padded
with NUL bytes and whose other bytes are the serialisation of `es2`:
`fill_dict` yields the entries of `es1`, then those of `es2`. -/
theorem parse_two_chunks (es1 es2 : List (Bytes × Bytes)) (p : Nat)
    (hwf1 : ∀ e ∈ es1, wellFormed e) (hwf2 : ∀ e ∈ es2, wellFormed e)
    (hn : es1.length + es2.length ≤ MAX_WORDS)
    (hp : (serialize es1).length + p = BUFSIZE) (hp1 : 1 ≤ p)
    (h2 : es2 ≠ []) (h12 : (serialize es1).length ≤ (serialize es2).length)
    (hlen2 : (serialize es2).length < BUFSIZE) :
    parse_file (serialize es1 ++ List.replicate p 0 ++ serialize es2)
      = .ok (es1.length + es2.length, es1 ++ es2) := by
  have hB : BUFSIZE = 4096 := rfl
  have hc1 : (serialize es1 ++ List.replicate p 0).length = BUFSIZE := by simp [hp]
  have hne : serialize es2 ≠ [] := by
    cases es2 with
    | nil => exact absurd rfl h2
    | cons e es => simp [serialize]
  -- the first chunk
  have hb1 : holds (bufAfter zeroMem (serialize es1 ++ List.replicate p 0)) 0
      (serialize es1 ++ [0]) := by
    obtain ⟨q, rfl⟩ : ∃ q, p = q + 1 := ⟨p - 1, by omega⟩
    have h := holds_bufAfter zeroMem (serialize es1 ++ List.replicate (q + 1) 0)
    rw [show serialize es1 ++ List.replicate (q + 1) 0
        = (serialize es1 ++ [0]) ++ List.replicate q 0 by simp [List.replicate_succ],
      holds_append] at h
    rw [show serialize es1 ++ List.replicate (q + 1) 0
        = (serialize es1 ++ [0]) ++ List.replicate q 0 by simp [List.replicate_succ]]
    exact h.1
  -- the second chunk
  have hb2 : holds (bufAfter (bufAfter zeroMem (serialize es1 ++ List.replicate p 0))
      (serialize es2)) 0 (serialize es2 ++ [0]) := by
    rw [holds_append]
    refine ⟨holds_bufAfter _ _, ?_, trivial⟩
    rw [Nat.zero_add]
    simp only [bufAfter, lt_irrefl, if_false, hc1, if_pos hlen2]
    rw [List.getD_append_right _ _ _ _ h12]
    simp only [List.getD_eq_getElem?_getD, List.getElem?_replicate]
    split <;> rfl
  have hrd := readDict_writeRows (es1 ++ es2) [] (es1 ++ es2) rfl
    (by
      intro e he
      rcases List.mem_append.1 he with he | he
      · exact wellFormed_readable e (hwf1 e he)
      · exact wellFormed_readable e (hwf2 e he))
    (by simpa using hn)
  rw [List.length_nil, List.length_append] at hrd
  rw [parse_file, fill_dict_two _ _ _ _ hc1 hne (Nat.le_of_lt hlen2),
    recordLoop_serialize _ es1 0 _ _ hwf1 hb1 (by omega) (by omega), bind_ok]
  simp only [Nat.zero_add]
  rw [recordLoop_serialize _ es2 es1.length _ _ hwf2 hb2 hlen2 hn, bind_ok]
  simp only []
  have hrows : ∀ (f : Bytes × Bytes → Bytes),
      writeRows (writeRows zeroMem 0 (es1.map f)) es1.length (es2.map f)
        = writeRows zeroMem 0 ((es1 ++ es2).map f) := by
    intro f
    rw [List.map_append, writeRows_append, List.length_map, Nat.zero_add]
  rw [hrows, hrows, hrd, bind_ok]

/-! ## Lemmas on `rand_file` -/

/-- The call `strcpy` inside the object stores the string and a NUL. -/
theorem strcpy_eq (limit : Nat) (m : Mem) (a : Nat) (s : Bytes) (h : a + s.length < limit) :
    strcpy limit m a s = .ok (Function.update (writeStr m a s) (a + s.length) 0) := by
  induction s generalizing m a with
  | nil =>
    simp only [List.length_nil, Nat.add_zero] at h
    rw [strcpy, if_pos h]; rfl
  | cons c s ih =>
    simp only [List.length_cons] at h
    rw [strcpy, if_pos (by omega), ih _ _ (by omega)]
    simp only [List.length_cons, writeStr]
    rw [show a + 1 + s.length = a + (s.length + 1) by omega]

/-- The call `strcpy` of a string that does not fit the object, with its NUL,
writes out of bounds. -/
theorem strcpy_fault (limit : Nat) (m : Mem) (a : Nat) (s : Bytes)
    (h : limit ≤ a + s.length) : strcpy limit m a s = .fault := by
  induction s generalizing m a with
  | nil =>
    simp only [List.length_nil, Nat.add_zero] at h
    rw [strcpy, if_neg (by omega)]
  | cons c s ih =>
    simp only [List.length_cons] at h
    rw [strcpy]
    split
    · exact ih _ _ (by omega)
    · rfl

/-- After `strcpy` the block holds the string and a NUL. -/
theorem holds_strcpy (m : Mem) (a : Nat) (s : Bytes) :
    holds (Function.update (writeStr m a s) (a + s.length) 0) a (s ++ [0]) := by
  rw [holds_append]
  refine ⟨holds_of_getD _ _ _ (fun j hj => ?_), ?_, trivial⟩
  · rw [Function.update_noteq (by omega), writeStr_at _ _ _ _ hj]
  · exact Function.update_same _ _ _

/-- The directory loop looks at the regular files only. -/
theorem readdirLoop_filter (l : List dirent) (i : Nat) (files : Mem) :
    readdirLoop l i files = readdirLoop (l.filter (fun e => e.d_type = DT_REG)) i files := by
  induction l generalizing i files with
  | nil => rfl
  | cons e l ih =>
    by_cases h : e.d_type = DT_REG
    · rw [List.filter_cons_of_pos (by simpa using h), readdirLoop, readdirLoop, if_pos h, if_pos h]
      split
      · cases strcpy ((i + 1) * MAX_WORDLENGTH) files (i * MAX_WORDLENGTH) e.d_name with
        | ok f => rw [bind_ok, bind_ok, ih]
        | fault => rfl
        | timeout => rfl
      · rfl
    · rw [List.filter_cons_of_neg (by simpa using h), readdirLoop, if_neg h, ih]

/-! ## Lemmas on `start_interactive_choice` -/

/-- The menu loop prints one item per row. -/
theorem menuLoop_eq (words : Mem) (W : Nat → Bytes) (cnt i : Nat) (out : List Bytes)
    (h : ∀ j, i ≤ j → j < i + cnt → wordAt words j = .ok (W j)) :
    menuLoop words cnt i out
      = .ok (out ++ (List.range' i cnt).map (fun j => menuItem j (W j))) := by
  induction cnt generalizing i out with
  | zero => simp [menuLoop]
  | succ cnt ih =>
    rw [menuLoop, h i (Nat.le_refl _) (by omega), bind_ok,
      ih (i + 1) _ (fun j h1 h2 => h j (by omega) (by omega))]
    simp [List.range'_succ]

/-- The prompting loop on non-negative inputs followed by a negative one, all
of them values of an `int`. -/
theorem choiceLoop_run (words meanings : Mem) (n : Nat) (W D : Nat → Bytes)
    (hrows : ∀ i, i < n → wordAt words i = .ok (W i) ∧ wordAt meanings i = .ok (D i))
    (pre post : List Int) (c : Int) (fuel : Nat) (choice : Int) (out : List Bytes)
    (hpre : ∀ x ∈ pre, 0 ≤ x ∧ x ≤ INT_MAX) (hc : INT_MIN ≤ c ∧ c < 0)
    (hfuel : pre.length < fuel) :
    choiceLoop words meanings n fuel (pre ++ c :: post) choice out
      = .ok (post, out ++ choiceOutput W D n pre ++ [prompt]) := by
  have hmin : INT_MIN = -2147483648 := rfl
  have hmax : INT_MAX = 2147483647 := rfl
  induction pre generalizing fuel choice out with
  | nil =>
    obtain ⟨fuel, rfl⟩ : ∃ f, fuel = f + 1 := ⟨fuel - 1, by simp at hfuel; omega⟩
    simp only [List.nil_append, choiceLoop, scanChoice]
    rw [if_pos ⟨hc.1, by omega⟩, bind_ok]
    rw [if_neg (by omega), if_pos hc.2]
    simp [choiceOutput]
  | cons x pre ih =>
    obtain ⟨fuel, rfl⟩ : ∃ f, fuel = f + 1 := ⟨fuel - 1, by simp at hfuel; omega⟩
    have hx := hpre x (by simp)
    simp only [List.length_cons] at hfuel
    simp only [List.cons_append, choiceLoop, scanChoice]
    rw [if_pos ⟨by omega, hx.2⟩, bind_ok]
    by_cases hxn : x ≥ (n : Int)
    · rw [if_pos hxn, ih fuel x _ (fun y hy => hpre y (by simp [hy])) (by omega)]
      simp [choiceOutput, not_lt.2 hxn]
    · have hlt : x < (n : Int) := by omega
      have hi : x.toNat < n := by omega
      rw [if_neg hxn, if_neg (by omega), (hrows _ hi).1, bind_ok, (hrows _ hi).2, bind_ok,
        ih fuel x _ (fun y hy => hpre y (by simp [hy])) (by omega)]
      simp [choiceOutput, hlt]

/-- Without a negative input the prompting loop is never left. -/
theorem choiceLoop_no_exit (words meanings : Mem) (n : Nat) (fuel : Nat)
    (input : List Int) (choice : Int) (out : List Bytes)
    (hin : ∀ x ∈ input, 0 ≤ x) (hch : 0 ≤ choice) (r : List Int × List Bytes) :
    choiceLoop words meanings n fuel input choice out ≠ .ok r := by
  induction fuel generalizing input choice out with
  | zero => simp [choiceLoop]
  | succ fuel ih =>
    rw [choiceLoop]
    cases hsc : scanChoice input choice with
    | ok s =>
      have hs : 0 ≤ s.1 ∧ ∀ x ∈ s.2, 0 ≤ x := by
        cases input with
        | nil =>
          simp only [scanChoice, Res.ok.injEq] at hsc
          subst hsc
          exact ⟨hch, fun x hx => by simp at hx⟩
        | cons c rest =>
          simp only [scanChoice] at hsc
          split at hsc
          · simp only [Res.ok.injEq] at hsc
            subst hsc
            exact ⟨hin c (by simp), fun x hx => hin x (by simp [hx])⟩
          · exact absurd hsc (by simp)
      rw [bind_ok]
      split
      · exact ih _ _ _ hs.2 hs.1
      · rw [if_neg (by omega)]
        cases wordAt words s.1.toNat with
        | ok w =>
          rw [bind_ok]
          cases wordAt meanings s.1.toNat with
          | ok d => rw [bind_ok]; exact ih _ _ _ hs.2 hs.1
          | fault => simp
          | timeout => simp
        | fault => simp
        | timeout => simp
    | fault => simp
    | timeout => simp

/-- At the end of the input, with `choice = 0` and a non-empty entry set, the
prompting loop goes on for as many iterations as are allowed. -/
theorem choiceLoop_eof_spins (words meanings : Mem) (n : Nat) (w d : Bytes)
    (hn : 0 < n) (hw : wordAt words 0 = .ok w) (hd : wordAt meanings 0 = .ok d)
    (fuel : Nat) (out : List Bytes) :
    choiceLoop words meanings n fuel [] 0 out = .timeout := by
  induction fuel generalizing out with
  | zero => rfl
  | succ fuel ih =>
    simp only [choiceLoop, scanChoice, bind_ok]
    rw [if_neg (by omega), if_neg (by omega), Int.toNat_zero, hw, bind_ok, hd, bind_ok]
    exact ih _

/-! ## Lemmas on random mode -/

/-- A row that can be read lies inside the array. -/
theorem row_lt_of_wordAt (words : Mem) (row : Nat) (s : Bytes)
    (h : wordAt words row = .ok s) : row < MAX_WORDS := by
  by_contra hge
  have h0 : WORDS_SIZE - row * MAX_WORDLENGTH = 0 := by
    simp only [WORDS_SIZE, MAX_WORDS, MAX_WORDLENGTH] at hge ⊢; omega
  rw [wordAt, cstr, h0, cstrAux] at h
  exact absurd h (by simp)

/-- The skipping loop stops on the first row at or after `irand` whose word
has at least two bytes. -/
theorem skipLoop_eq (words : Mem) (W : Nat → Bytes) (j : Nat) (d fuel irand : Nat)
    (hd : irand + d = j) (hfuel : d < fuel)
    (hrows : ∀ i, irand ≤ i → i ≤ j → wordAt words i = .ok (W i))
    (hj : 2 ≤ (W j).length) (hleast : ∀ i, irand ≤ i → i < j → (W i).length ≤ 1) :
    skipLoop words fuel irand = .ok j := by
  induction d generalizing fuel irand with
  | zero =>
    obtain ⟨fuel, rfl⟩ : ∃ f, fuel = f + 1 := ⟨fuel - 1, by omega⟩
    have : irand = j := by omega
    subst this
    rw [skipLoop, strlen, hrows irand (Nat.le_refl _) (Nat.le_refl _), bind_ok, bind_ok,
      if_neg (by omega)]
  | succ d ih =>
    obtain ⟨fuel, rfl⟩ : ∃ f, fuel = f + 1 := ⟨fuel - 1, by omega⟩
    rw [skipLoop, strlen, hrows irand (Nat.le_refl _) (by omega), bind_ok, bind_ok,
      if_pos (hleast irand (Nat.le_refl _) (by omega)),
      ih fuel (irand + 1) (by omega) (by omega) (fun i h1 h2 => hrows i (by omega) h2)
        (fun i h1 h2 => hleast i (by omega) h2)]

/-! ## The record parser -/

/-- Entries without NUL, `':'` in the word and newline in the definition, of
at most 127 bytes each, are well-formed. -/
theorem wellFormed_of (es : List (Bytes × Bytes))
    (hchars : ∀ e ∈ es, (∀ c ∈ e.1, c ≠ 0 ∧ c ≠ 58) ∧ (∀ c ∈ e.2, c ≠ 0 ∧ c ≠ 10))
    (hlen : ∀ e ∈ es, e.1.length ≤ 127 ∧ e.2.length ≤ 127) :
    ∀ e ∈ es, wellFormed e := by
  intro e he
  have h1 := hlen e he
  exact ⟨(hchars e he).1, (hchars e he).2, by simp only [MAX_WORDLENGTH]; omega,
    by simp only [MAX_WORDLENGTH]; omega⟩

/-- Claim C1 (parsing round trip): for entries whose words and definitions
contain no `':'`, no newline and no NUL and have at most 127 bytes, at most 256
of them, with a serialisation shorter than the 4096-byte buffer, `fill_dict`
on the serialisation sets `*n` to the number of entries and leaves in
`words[i]` and `meanings[i]` the word and the definition of the `i`-th entry,
for every `i < n`. -/
theorem fill_dict_round_trip (es : List (Bytes × Bytes))
    (hchars : ∀ e ∈ es, (∀ c ∈ e.1, c ≠ 58 ∧ c ≠ 10 ∧ c ≠ 0)
      ∧ (∀ c ∈ e.2, c ≠ 58 ∧ c ≠ 10 ∧ c ≠ 0))
    (hlen : ∀ e ∈ es, e.1.length ≤ 127 ∧ e.2.length ≤ 127)
    (hn : es.length ≤ 256) (hsize : (serialize es).length < 4096) :
    ∃ words meanings,
      fill_dict (serialize es) zeroMem zeroMem = .ok (es.length, words, meanings)
        ∧ ∀ i (h : i < es.length),
            wordAt words i = .ok es[i].1 ∧ wordAt meanings i = .ok es[i].2 := by
  have hwf := wellFormed_of es
    (fun e he => ⟨fun c hc => ⟨((hchars e he).1 c hc).2.2, ((hchars e he).1 c hc).1⟩,
      fun c hc => ⟨((hchars e he).2 c hc).2.2, ((hchars e he).2 c hc).2.1⟩⟩) hlen
  refine ⟨_, _, fill_dict_serialize es hwf hn hsize, fun i h => ⟨?_, ?_⟩⟩
  · have := wordAt_writeRows (es.map Prod.fst) i
      (by intro s hs; obtain ⟨x, hx, rfl⟩ := List.mem_map.1 hs; exact (hwf x hx).2.2.1)
      (by intro s hs; obtain ⟨x, hx, rfl⟩ := List.mem_map.1 hs
          exact fun c hc => ((hwf x hx).1 c hc).1)
      (by simpa using hn) (by simpa using h)
    rw [this, List.getD_eq_getElem _ _ (by simpa using h)]
    simp
  · have := wordAt_writeRows (es.map Prod.snd) i
      (by intro s hs; obtain ⟨x, hx, rfl⟩ := List.mem_map.1 hs; exact (hwf x hx).2.2.2)
      (by intro s hs; obtain ⟨x, hx, rfl⟩ := List.mem_map.1 hs
          exact fun c hc => ((hwf x hx).2.1 c hc).1)
      (by simpa using hn) (by simpa using h)
    rw [this, List.getD_eq_getElem _ _ (by simpa using h)]
    simp

/-- Instances of C1: the file `cat:feline\ndog:canine\n` gives `n = 2` with
(cat, feline) and (dog, canine); the empty file gives `n = 0`. -/
theorem fill_dict_round_trip_witness :
    serialize catDog = bytes "cat:feline\ndog:canine\n"
      ∧ (∃ words meanings,
          fill_dict (serialize catDog) zeroMem zeroMem = .ok (2, words, meanings)
            ∧ ∀ i (h : i < 2),
                wordAt words i = .ok catDog[i].1 ∧ wordAt meanings i = .ok catDog[i].2)
      ∧ (∃ words meanings, fill_dict [] zeroMem zeroMem = .ok (0, words, meanings)
            ∧ ∀ i (h : i < 0),
                wordAt words i = .ok ([] : List (Bytes × Bytes))[i].1
                  ∧ wordAt meanings i = .ok ([] : List (Bytes × Bytes))[i].2) :=
  ⟨by decide,
    fill_dict_round_trip catDog (by decide) (by decide) (by decide) (by decide),
    fill_dict_round_trip [] (by decide) (by decide) (by decide) (by decide)⟩

/-- Claim C2, counterexample: the buffer of `longWord` is NUL-free, shorter
than 4096 bytes and made of two newline-terminated records with a `':'`, but
the first word has 128 bytes: it fills row 0 of `words` and leaves no NUL
before row 1, so `words[0]` reads as the 128 bytes followed by the second
word. -/
theorem record_grammar_counterexample :
    (∀ e ∈ longWord, (∀ c ∈ e.1, c ≠ 0 ∧ c ≠ 58 ∧ c ≠ 10) ∧ (∀ c ∈ e.2, c ≠ 0 ∧ c ≠ 10))
      ∧ (serialize longWord).length < 4096
      ∧ parse_file (serialize longWord)
          = .ok (2, [(List.replicate 128 97 ++ bytes "b", bytes "x"), (bytes "b", bytes "y")])
      ∧ parse_file (serialize longWord) ≠ .ok (longWord.length, longWord) := by
  refine ⟨by decide!, by decide!, by decide!, by decide!⟩

/-- Claim C2 (record grammar), amended with the capacities of the arrays: for
a NUL-free buffer shorter than 4096 bytes made of at most 256 newline-terminated
records `word:definition`, the word without `':'` and newline, the definition
without newline (it may contain `':'`), each of at most 127 bytes, `fill_dict`
emits one entry per record, in order: the word is the bytes before the first
`':'` of the record, the definition the bytes after it up to the newline. -/
theorem fill_dict_record_grammar (es : List (Bytes × Bytes))
    (hchars : ∀ e ∈ es, (∀ c ∈ e.1, c ≠ 0 ∧ c ≠ 58 ∧ c ≠ 10) ∧ (∀ c ∈ e.2, c ≠ 0 ∧ c ≠ 10))
    (hlen : ∀ e ∈ es, e.1.length ≤ 127 ∧ e.2.length ≤ 127)
    (hn : es.length ≤ 256) (hsize : (serialize es).length < 4096) :
    parse_file (serialize es) = .ok (es.length, es) :=
  parse_serialize es
    (wellFormed_of es
      (fun e he => ⟨fun c hc => ⟨((hchars e he).1 c hc).1, ((hchars e he).1 c hc).2.1⟩,
        (hchars e he).2⟩) hlen)
    hn hsize

/-- Instance of C2: `a:b:c\n` gives the word `a` and the definition `b:c`. -/
theorem fill_dict_record_grammar_witness :
    serialize [(bytes "a", bytes "b:c")] = bytes "a:b:c\n"
      ∧ parse_file (serialize [(bytes "a", bytes "b:c")])
          = .ok (1, [(bytes "a", bytes "b:c")]) :=
  ⟨by decide,
    fill_dict_record_grammar [(bytes "a", bytes "b:c")] (by decide) (by decide) (by decide)
      (by decide)⟩

/-- Claim C3, counterexample: on `cat:feline\ndog`, whose last byte is not a
newline, `fill_dict` sets `*n` to 2 and emits the entry (dog, empty) for the
trailing run, while the buffer without the trailing run gives one entry. -/
theorem trailing_run_counterexample :
    parse_file (bytes "cat:feline\ndog")
        = .ok (2, [(bytes "cat", bytes "feline"), (bytes "dog", [])])
      ∧ parse_file (bytes "cat:feline\n") = .ok (1, [(bytes "cat", bytes "feline")])
      ∧ parse_file (bytes "cat:feline\ndog") ≠ parse_file (bytes "cat:feline\n") := by
  refine ⟨by decide!, by decide!, by decide!⟩

/-- Claim C3 (trailing content), amended: for a buffer of at most 4093 bytes
made of well-formed records (as in C2) followed by a non-empty run of bytes
without NUL and newline, `fill_dict` emits the entries of the records and one
more entry for the trailing run, whose word is the run up to its first `':'`
and whose definition is what follows that `':'` (empty when there is none);
`*n` is the number of newline-terminated records plus one. -/
theorem fill_dict_trailing_run (es : List (Bytes × Bytes)) (t : Bytes)
    (hchars : ∀ e ∈ es, (∀ c ∈ e.1, c ≠ 0 ∧ c ≠ 58 ∧ c ≠ 10) ∧ (∀ c ∈ e.2, c ≠ 0 ∧ c ≠ 10))
    (hlen : ∀ e ∈ es, e.1.length ≤ 127 ∧ e.2.length ≤ 127)
    (ht : t ≠ []) (ht0 : ∀ c ∈ t, c ≠ 0 ∧ c ≠ 10)
    (htl : (trailingEntry t).1.length ≤ 127 ∧ (trailingEntry t).2.length ≤ 127)
    (hn : es.length + 1 ≤ 256) (hsize : (serialize es ++ t).length ≤ 4093) :
    parse_file (serialize es ++ t) = .ok (es.length + 1, es ++ [trailingEntry t]) :=
  parse_trailing es t
    (wellFormed_of es
      (fun e he => ⟨fun c hc => ⟨((hchars e he).1 c hc).1, ((hchars e he).1 c hc).2.1⟩,
        (hchars e he).2⟩) hlen)
    ht ht0 (by simp only [MAX_WORDLENGTH]; omega) (by simp only [MAX_WORDLENGTH]; omega)
    hn (by simp only [BUFSIZE]; omega)

/-- Instance of C3: `cat:feline\ndog:can` gives (cat, feline) and (dog, can). -/
theorem fill_dict_trailing_run_witness :
    serialize [(bytes "cat", bytes "feline")] ++ bytes "dog:can" = bytes "cat:feline\ndog:can"
      ∧ trailingEntry (bytes "dog:can") = (bytes "dog", bytes "can")
      ∧ parse_file (serialize [(bytes "cat", bytes "feline")] ++ bytes "dog:can")
          = .ok (1 + 1, [(bytes "cat", bytes "feline")] ++ [trailingEntry (bytes "dog:can")]) :=
  ⟨by decide, by decide,
    fill_dict_trailing_run [(bytes "cat", bytes "feline")] (bytes "dog:can")
      (by decide) (by decide) (by decide) (by decide) (by decide) (by decide) (by decide)⟩

/-- Claim C9, counterexample: `bigFile1` and `bigFile2` are longer than 4096
bytes and agree on their first 4096 bytes, but `fill_dict` reads on after the
first `read` and yields two entries for the one and three for the other. -/
theorem oversized_file_counterexample :
    parse_file bigFile1 = .ok (2, [(bytes "a", bytes "b"), (bytes "c", bytes "d")])
      ∧ parse_file bigFile2
          = .ok (3, [(bytes "a", bytes "b"), (bytes "c", bytes "d"), (bytes "e", bytes "f")])
      ∧ ¬ (∀ f1 f2 : Bytes, 4096 < f1.length → 4096 < f2.length →
            f1.take 4096 = f2.take 4096 → parse_file f1 = parse_file f2) := by
  refine ⟨by decide!, by decide!, fun h => ?_⟩
  have h12 := h bigFile1 bigFile2 (by decide!) (by decide!) (by decide!)
  revert h12
  decide!

/-- Claim C9 (oversized file), amended to files whose first 4096 bytes end
with NUL padding: when the first 4096 bytes of the file are the records of
`es1` followed by at least one NUL byte, and the rest of the file is the
records of `es2`, not empty, not shorter than the records of `es1` and shorter
than 4096 bytes (records well-formed as in C2, at most 256 in all),
`fill_dict` sets `*n` to the number of all records and the entries are those
of `es1` followed by those of `es2`: the bytes that the second `read`
delivers contribute entries. -/
theorem fill_dict_reads_every_chunk (es1 es2 : List (Bytes × Bytes)) (p : Nat)
    (hchars : ∀ e ∈ es1 ++ es2,
      (∀ c ∈ e.1, c ≠ 0 ∧ c ≠ 58 ∧ c ≠ 10) ∧ (∀ c ∈ e.2, c ≠ 0 ∧ c ≠ 10))
    (hlen : ∀ e ∈ es1 ++ es2, e.1.length ≤ 127 ∧ e.2.length ≤ 127)
    (hn : es1.length + es2.length ≤ 256)
    (hp : (serialize es1).length + p = 4096) (hp1 : 1 ≤ p)
    (h2 : es2 ≠ []) (h12 : (serialize es1).length ≤ (serialize es2).length)
    (hsize : (serialize es2).length < 4096) :
    parse_file (serialize es1 ++ List.replicate p 0 ++ serialize es2)
      = .ok (es1.length + es2.length, es1 ++ es2) := by
  have hwf := wellFormed_of (es1 ++ es2)
    (fun e he => ⟨fun c hc => ⟨((hchars e he).1 c hc).1, ((hchars e he).1 c hc).2.1⟩,
      (hchars e he).2⟩) hlen
  exact parse_two_chunks es1 es2 p (fun e he => hwf e (by simp [he]))
    (fun e he => hwf e (by simp [he])) hn hp hp1 h2 h12 hsize

/-- Instance of C9: the file `bigFile1` gives (a, b) from the first chunk and
(c, d) from the second. -/
theorem fill_dict_reads_every_chunk_witness :
    serialize [(bytes "a", bytes "b")] ++ List.replicate 4092 0
        ++ serialize [(bytes "c", bytes "d")] = bigFile1
      ∧ parse_file (serialize [(bytes "a", bytes "b")] ++ List.replicate 4092 0
          ++ serialize [(bytes "c", bytes "d")])
          = .ok (1 + 1, [(bytes "a", bytes "b")] ++ [(bytes "c", bytes "d")]) :=
  ⟨by decide!,
    fill_dict_reads_every_chunk [(bytes "a", bytes "b")] [(bytes "c", bytes "d")] 4092
      (by decide) (by decide) (by decide) (by decide) (by decide) (by decide) (by decide)
      (by decide)⟩

/-! ## Choice mode -/

/-- Claim C4, counterexample: on `[(cat, feline), (dog, canine)]` and the
integer inputs 2147483648, 0, -1, whose first negative one is the third, the
first integer does not fit the `int` that `scanf("%d", &choice)` stores to
(undefined behaviour), so the code does not ignore it as an input `>= n` and
go on to consume 0 and -1. -/
theorem choice_mode_int_range_counterexample :
    start_interactive_choice (rowsOf (catDog.map Prod.fst)) (rowsOf (catDog.map Prod.snd)) 2 4
        [2147483648, 0, -1] = .fault
      ∧ start_interactive_choice (rowsOf (catDog.map Prod.fst)) (rowsOf (catDog.map Prod.snd))
          2 4 [2147483648, 0, -1]
        ≠ .ok ([], [bytes "0 cat | ", bytes "1 dog | ", prompt, prompt,
            bytes "cat -> feline\n", prompt]) := by
  refine ⟨by decide!, by decide!⟩

/-- Claim C4 (choice-mode transitions), amended to integers that fit an `int`:
on an entry set of size `n` and inputs that are non-negative integers `pre`,
then a negative integer `c`, then anything, `pre` and `c` being within
`INT_MIN .. INT_MAX`, `start_interactive_choice` returns after it consumed
`pre` and `c` (the input left is `post`); after the menu it prints, for each
input of `pre` in turn, a prompt and, when the input is below `n`, the one line
`words[x] -> meanings[x]`; an input `>= n` prints no entry.  Only rows below
`n` are read: nothing is assumed on the other rows. -/
theorem choice_mode_transitions (words meanings : Mem) (n : Nat) (W D : Nat → Bytes)
    (pre post : List Int) (c : Int) (fuel : Nat)
    (hrows : ∀ i, i < n → wordAt words i = .ok (W i) ∧ wordAt meanings i = .ok (D i))
    (hpre : ∀ x ∈ pre, 0 ≤ x ∧ x ≤ INT_MAX) (hc : INT_MIN ≤ c ∧ c < 0)
    (hfuel : pre.length < fuel) :
    start_interactive_choice words meanings n fuel (pre ++ c :: post)
      = .ok (post, (List.range n).map (fun i => menuItem i (W i))
          ++ choiceOutput W D n pre ++ [prompt]) := by
  rw [start_interactive_choice,
    menuLoop_eq words W n 0 [] (fun j _ h => (hrows j (by omega)).1), bind_ok,
    choiceLoop_run words meanings n W D hrows pre post c fuel 0 _ hpre hc hfuel]
  simp [List.range_eq_range']

/-- Instances of C4 on `[(cat, feline), (dog, canine)]`: the inputs `[1, -1]`
print `dog -> canine` and exit; the inputs `[0, n, -1]` with `n = 2` print the
pair of entry 0 once, ignore the input `n` and exit. -/
theorem choice_mode_transitions_witness :
    start_interactive_choice (rowsOf (catDog.map Prod.fst)) (rowsOf (catDog.map Prod.snd)) 2 2
        ([1] ++ (-1) :: [])
      = .ok ([], (List.range 2).map
            (fun i => menuItem i ((catDog.map Prod.fst).getD i []))
          ++ choiceOutput (fun i => (catDog.map Prod.fst).getD i [])
              (fun i => (catDog.map Prod.snd).getD i []) 2 [1] ++ [prompt])
    ∧ choiceOutput (fun i => (catDog.map Prod.fst).getD i [])
        (fun i => (catDog.map Prod.snd).getD i []) 2 [1] = [prompt, bytes "dog -> canine\n"]
    ∧ start_interactive_choice (rowsOf (catDog.map Prod.fst)) (rowsOf (catDog.map Prod.snd)) 2 3
        ([0, 2] ++ (-1) :: [])
      = .ok ([], (List.range 2).map
            (fun i => menuItem i ((catDog.map Prod.fst).getD i []))
          ++ choiceOutput (fun i => (catDog.map Prod.fst).getD i [])
              (fun i => (catDog.map Prod.snd).getD i []) 2 [0, 2] ++ [prompt])
    ∧ choiceOutput (fun i => (catDog.map Prod.fst).getD i [])
        (fun i => (catDog.map Prod.snd).getD i []) 2 [0, 2]
        = [prompt, bytes "cat -> feline\n", prompt] :=
  ⟨choice_mode_transitions _ _ 2 _ _ [1] [] (-1) 2 (by decide!) (by decide) (by decide)
      (by decide),
    by decide!,
    choice_mode_transitions _ _ 2 _ _ [0, 2] [] (-1) 3 (by decide!) (by decide) (by decide)
      (by decide),
    by decide!⟩

/-- Claim C5, the code at the failing input: on the entry set `[(cat, feline)]`
and the empty input stream, `start_interactive_choice` is still running after
any number `fuel` of iterations of the prompting loop: `scanf` stores nothing
at the end of the input, `choice` keeps the value 0 and the loop prints
`cat -> feline` again. -/
theorem choice_mode_eof_never_returns (fuel : Nat) :
    start_interactive_choice (rowsOf [bytes "cat"]) (rowsOf [bytes "feline"]) 1 fuel []
      = .timeout := by
  have hm : menuLoop (rowsOf [bytes "cat"]) 1 0 [] = .ok [bytes "0 cat | "] := by decide!
  rw [start_interactive_choice, hm, bind_ok]
  exact choiceLoop_eof_spins _ _ 1 (bytes "cat") (bytes "feline") (by decide) (by decide!)
    (by decide!) fuel _

/-! ## Random mode -/

/-- Claim C10 (skip rule of random mode): on an entry set of size `n >= 1`
and a value `r` of `rand()` such that some index `j` with `r % n <= j < n` has
a word of at least two bytes, `j` being the least such index, one iteration of
the random-mode loop prints exactly the line of the entry `j`. -/
theorem random_skip_rule (words meanings : Mem) (n r j : Nat) (W D : Nat → Bytes)
    (hn : 1 ≤ n)
    (hrows : ∀ i, i < n → wordAt words i = .ok (W i) ∧ wordAt meanings i = .ok (D i))
    (hj1 : r % n ≤ j) (hj2 : j < n) (hjlen : 2 ≤ (W j).length)
    (hleast : ∀ i, r % n ≤ i → i < j → (W i).length ≤ 1) :
    randomIter words meanings n r = .ok (line (W j) (D j)) := by
  have hjmax : j < MAX_WORDS := row_lt_of_wordAt words j _ (hrows j hj2).1
  rw [randomIter, if_neg (by omega),
    skipLoop_eq words W j (j - r % n) (MAX_WORDS + 1) (r % n) (by omega) (by omega)
      (fun i _ h2 => (hrows i (by omega)).1) hjlen hleast,
    bind_ok, (hrows j hj2).1, bind_ok, (hrows j hj2).2, bind_ok]

/-- Instance of C10: on the words `a`, `bc`, `d`, `ef` and `rand() = 6`, the
start index is 2, the word `d` is skipped and `ef -> h` is printed. -/
theorem random_skip_rule_witness :
    randomIter (rowsOf [bytes "a", bytes "bc", bytes "d", bytes "ef"])
        (rowsOf [bytes "e", bytes "f", bytes "g", bytes "h"]) 4 6
      = .ok (line ([bytes "a", bytes "bc", bytes "d", bytes "ef"].getD 3 [])
          ([bytes "e", bytes "f", bytes "g", bytes "h"].getD 3 []))
    ∧ line ([bytes "a", bytes "bc", bytes "d", bytes "ef"].getD 3 [])
          ([bytes "e", bytes "f", bytes "g", bytes "h"].getD 3 []) = bytes "ef -> h\n" :=
  ⟨random_skip_rule _ _ 4 6 3 (fun i => [bytes "a", bytes "bc", bytes "d", bytes "ef"].getD i [])
      (fun i => [bytes "e", bytes "f", bytes "g", bytes "h"].getD i [])
      (by decide) (by decide!) (by decide) (by decide) (by decide) (by decide!),
    by decide⟩

/-- Claim C6, the code at the failing input: on the entry set
`[(ab, x), (c, y)]`, which has an entry with a word of two bytes, the count 1
and `rand() = 1`, the start index is 1, the skipping loop goes through the rows
1 to 255 and then reads `words[256]`, outside the array. -/
theorem random_mode_runs_off_the_array :
    main_case_r (rowsOf [bytes "ab", bytes "c"]) (rowsOf [bytes "x", bytes "y"]) 2 1
        (fun _ => 1) = .fault
      ∧ skipLoop (rowsOf [bytes "ab", bytes "c"]) (MAX_WORDS + 1) 1 = .fault := by
  refine ⟨by decide!, by decide!⟩

/-- Claim C7, the code at the failing inputs: on the empty entry set every
count `k + 1 >= 1` makes random mode compute `rand() % 0`; on the entry set
`[(a, x), (, y)]`, whose words have at most one byte, the skipping loop leaves
the array. -/
theorem random_mode_no_eligible_entry :
    (∀ (words meanings : Mem) (k : Nat) (rand : Nat → Nat),
        main_case_r words meanings 0 ((k : Int) + 1) rand = .fault)
      ∧ main_case_r (rowsOf [bytes "a", []]) (rowsOf [bytes "x", bytes "y"]) 2 1 (fun _ => 0)
          = .fault := by
  refine ⟨fun words meanings k rand => ?_, by decide!⟩
  have h : ((k : Int) + 1).toNat = k + 1 := by omega
  rw [main_case_r, h, randomLoop, randomIter, if_pos rfl]
  rfl

/-! ## Random file selection -/

/-- Claim C8, counterexample: a listing with the directory `.` and one
regular file whose name has 128 bytes.  The name is a string that a directory
can hold, but with its NUL it takes 129 bytes: `strcpy(files[0], ...)` writes
past the row of 128 bytes (and `strcpy(file, ...)` would write past `fname`),
so `rand_file` does not return 1 with the name in `file`. -/
theorem rand_file_long_name_counterexample :
    longNameDir.filter (fun x => x.d_type = DT_REG) = [⟨8, List.replicate 128 97⟩]
      ∧ (∀ c ∈ List.replicate 128 97, c ≠ 0)
      ∧ rand_file (some longNameDir) 0 zeroMem = .fault := by
  refine ⟨by decide, by decide!, ?_⟩
  rw [rand_file, readdirLoop_filter,
    show longNameDir.filter (fun x => x.d_type = DT_REG) = [⟨8, List.replicate 128 97⟩]
      by decide,
    readdirLoop,
    if_pos (show (dirent.mk 8 (List.replicate 128 97)).d_type = DT_REG from rfl),
    if_pos (by decide), strcpy_fault _ _ _ _ (by decide!)]
  rfl

/-- Claim C8 (random file selection), amended with the capacity of a row of
`files` and of `file`: for every directory listing, every value `r` of
`rand()` and every content of `file`: when exactly one entry `e` is a regular
file and its name has at most 127 bytes, `rand_file` returns 1 and leaves the
name of `e` in `file`, whatever the other entries; when no entry is a regular
file, `rand_file` returns -1 and leaves `file` as it was. -/
theorem rand_file_one_or_none (listing : List dirent) (r : Nat) (file : Mem) :
    (∀ e : dirent, listing.filter (fun x => x.d_type = DT_REG) = [e] →
        (∀ c ∈ e.d_name, c ≠ 0) → e.d_name.length ≤ 127 →
        ∃ file1, rand_file (some listing) r file = .ok (1, file1)
          ∧ cstr MAX_WORDLENGTH file1 0 = .ok e.d_name)
      ∧ (listing.filter (fun x => x.d_type = DT_REG) = [] →
        rand_file (some listing) r file = .ok (-1, file)) := by
  constructor
  · intro e hone h0 hlen
    have hsz : 0 * MAX_WORDLENGTH + e.d_name.length < (0 + 1) * MAX_WORDLENGTH := by
      simp only [MAX_WORDLENGTH]; omega
    have hsz2 : 0 + e.d_name.length < MAX_WORDLENGTH := by
      simp only [MAX_WORDLENGTH]; omega
    have hreg : e.d_type = DT_REG := by
      have : e ∈ listing.filter (fun x => x.d_type = DT_REG) := by rw [hone]; simp
      simpa using (List.mem_filter.1 this).2
    refine ⟨Function.update (writeStr file 0 e.d_name) (0 + e.d_name.length) 0, ?_,
      cstr_of_holds _ _ e.d_name 0 hsz2 h0 (holds_strcpy file 0 e.d_name)⟩
    rw [rand_file, readdirLoop_filter, hone, readdirLoop, if_pos hreg, if_pos (by decide),
      strcpy_eq _ _ _ _ hsz, bind_ok, readdirLoop, bind_ok]
    simp only [Nat.add_one_ne_zero, if_false, Nat.zero_add, Nat.mod_one]
    rw [cstr_of_holds _ _ e.d_name _ (by simpa using hsz) h0
        (by simpa using holds_strcpy zeroMem (0 * MAX_WORDLENGTH) e.d_name),
      bind_ok, strcpy_eq _ _ _ _ hsz2, bind_ok, Nat.zero_add]
  · intro hnone
    rw [rand_file, readdirLoop_filter, hnone, readdirLoop, bind_ok]
    rfl

/-- Instances of C8: a listing with `.`, `..` (directories) and the regular
file `animals` gives `animals`; a listing with `.` and `..` only gives -1. -/
theorem rand_file_one_or_none_witness :
    (∃ file1,
        rand_file (some [⟨4, bytes "."⟩, ⟨8, bytes "animals"⟩, ⟨4, bytes ".."⟩]) 12345 zeroMem
            = .ok (1, file1)
          ∧ cstr MAX_WORDLENGTH file1 0 = .ok (dirent.mk 8 (bytes "animals")).d_name)
      ∧ rand_file (some [⟨4, bytes "."⟩, ⟨4, bytes ".."⟩]) 7 zeroMem = .ok (-1, zeroMem) :=
  ⟨(rand_file_one_or_none [⟨4, bytes "."⟩, ⟨8, bytes "animals"⟩, ⟨4, bytes ".."⟩] 12345
        zeroMem).1 ⟨8, bytes "animals"⟩ (by decide) (by decide) (by decide),
    (rand_file_one_or_none [⟨4, bytes "."⟩, ⟨4, bytes ".."⟩] 7 zeroMem).2 (by decide)⟩

end Voc
